import Mathlib

/-
  Verification development for the hierarchical product configurator.

  The core under verification is the SQL compatibility-resolution engine in
  src/database/queries.sql, operating on the schema documented in the
  repository (tables nodes and node_closure, the latter referred to as
  node_paths by the queries file).  SQL result sets are modelled as Lean
  lists of rows; NULL-able columns are Option types; bound parameters are
  function arguments.  A LIMIT 1 without ORDER BY is modelled as taking the
  first row in table order, and ORDER BY is modelled as a stable sort.
-/

/-- Row of the nodes table, with the columns the queries file reads:
id, parent_id, code, label, label_en, name, position, group_name, level,
full_typecode, is_intermediate_code and pattern.  Nullable columns are
Option; is_intermediate_code (an SQL 0/1 integer) is a Bool. -/
structure Node where
  id : Nat
  parent_id : Option Nat
  code : Option String
  label : String
  label_en : String
  name : String
  position : Nat
  group_name : String
  level : Option Nat
  full_typecode : Option String
  is_intermediate_code : Bool
  pattern : Option Nat
deriving DecidableEq, Repr

/-- Row of the node_closure table (called node_paths in queries.sql):
one (ancestor_id, descendant_id, depth) triple per tree path. -/
structure ClosureEntry where
  ancestor_id : Nat
  descendant_id : Nat
  depth : Nat
deriving DecidableEq, Repr

/-- Database state: the nodes table and the closure table, each as a list
of rows in table order. -/
structure DB where
  nodes : List Node
  node_paths : List ClosureEntry
deriving DecidableEq, Repr

/-- One prior selection as passed to Query 4: a code plus the level the
caller claims for it. -/
structure Selection where
  code : String
  level : Nat
deriving DecidableEq, Repr

/-- Byte-wise comparison of two strings as lists of characters, modelling
the default SQL text collation (codepoint order). -/
def charListLE : List Char → List Char → Bool
  | [], _ => true
  | _ :: _, [] => false
  | a :: as, b :: bs =>
      if a.toNat < b.toNat then true
      else if b.toNat < a.toNat then false
      else charListLE as bs

/-- Comparison of strings under the modelled SQL text collation. -/
def strLE (a b : String) : Bool :=
  charListLE a.data b.data

/-- SQL aggregate MAX over a list of integers: NULL (none) on the empty
set, otherwise the maximum. -/
def sqlMax : List Nat → Option Nat
  | [] => none
  | x :: rest => some (rest.foldl max x)

/-- Lookup of a node row by id; table order decides ties, matching the
behaviour of an id-keyed lookup (ids are unique in well-formed states). -/
def lookupNode (db : DB) (i : Nat) : Option Node :=
  db.nodes.find? (fun n => decide (n.id = i))

/-- Test whether some node row carries the given id. -/
def existsId (db : DB) (i : Nat) : Bool :=
  db.nodes.any (fun n => decide (n.id = i))

/-- Closure Index lookup: an entry with the given ancestor and descendant
exists (section 4.2 isReachable, the indexed EXISTS test of the queries). -/
def isReachable (db : DB) (a d : Nat) : Bool :=
  db.node_paths.any (fun e => decide (e.ancestor_id = a ∧ e.descendant_id = d))

/-- Stable sort of an SQL result set by an ORDER BY relation. -/
def sqlOrderBy (r : α → α → Prop) [DecidableRel r] (l : List α) : List α :=
  List.insertionSort r l

/-- Row type returned by Query 2 (children of a node): the selected
columns are code, label, name, position, full_typecode and
is_intermediate_code. -/
structure ChildRow where
  code : Option String
  label : String
  name : String
  position : Nat
  full_typecode : Option String
  is_intermediate_code : Bool
deriving DecidableEq, Repr

/-- Projection of a nodes row onto the Query 2 column list. -/
def childRow (n : Node) : ChildRow :=
  { code := n.code, label := n.label, name := n.name, position := n.position,
    full_typecode := n.full_typecode, is_intermediate_code := n.is_intermediate_code }

/-- ORDER BY position, code on Query 2 rows.  The NULL code case cannot
occur among returned rows (they are filtered on code IS NOT NULL), so the
tie-break key defaults NULL to the empty string. -/
def childRowLE (a b : ChildRow) : Prop :=
  a.position < b.position ∨
    (a.position = b.position ∧ strLE (a.code.getD "") (b.code.getD "") = true)

instance : DecidableRel childRowLE := fun a b => by
  unfold childRowLE; exact inferInstance

/-- Embedding of QUERY 2 (Get Children of Node): resolves the parent by
code with LIMIT 1 (first row in table order), then returns the direct
children that carry a code.  An empty subquery result compares parent_id
against NULL, matching no rows. -/
def query2 (db : DB) (parent_code : String) : List ChildRow :=
  match db.nodes.find? (fun n => decide (n.code = some parent_code)) with
  | none => []
  | some p =>
      sqlOrderBy childRowLE
        ((db.nodes.filter
            (fun n => decide (n.parent_id = some p.id ∧ n.code ≠ none))).map childRow)

/-- One generation of the recursive CTE depth_calc of Query 3 Option A:
the base case seeds every node whose code matches the parameter at depth
0, the recursive case joins children and increments the depth. -/
def depthCalcGen (db : DB) (start : String) : Nat → List (Nat × Nat)
  | 0 => (db.nodes.filter (fun n => decide (n.code = some start))).map
      (fun n => (n.id, 0))
  | i + 1 => (depthCalcGen db start i).flatMap
      (fun r => (db.nodes.filter (fun n => decide (n.parent_id = some r.1))).map
        (fun n => (n.id, r.2 + 1)))

/-- Full row set of the recursive CTE depth_calc.  The iteration stops as
soon as a generation is empty; in an acyclic store every generation past
the longest chain is empty, so cutting the union at a bound larger than
any chain length yields exactly the CTE fixpoint. -/
def depthCalc (db : DB) (start : String) : List (Nat × Nat) :=
  (List.range (db.nodes.length + db.node_paths.length + 1)).flatMap
    (depthCalcGen db start)

/-- Embedding of QUERY 3 Option A: MAX(depth) over the recursive CTE. -/
def maxDepthA (db : DB) (start : String) : Option Nat :=
  sqlMax ((depthCalc db start).map Prod.snd)

/-- Embedding of QUERY 3 Option B: MAX(depth) over closure entries whose
ancestor is the node found by code with LIMIT 1; an empty subquery gives
an ancestor_id = NULL filter matching no entry. -/
def maxDepthB (db : DB) (start : String) : Option Nat :=
  match db.nodes.find? (fun n => decide (n.code = some start)) with
  | none => none
  | some seed =>
      sqlMax ((db.node_paths.filter
        (fun e => decide (e.ancestor_id = seed.id))).map ClosureEntry.depth)

/-- CTE candidates of Query 4: all nodes at the target level that carry a
code (pattern containers are skipped). -/
def candidates (db : DB) (target : Nat) : List Node :=
  db.nodes.filter (fun n => decide (n.level = some target ∧ n.code ≠ none))

/-- CTE selection_ids of Query 4: each selection joined to the node rows
matching its code and level, yielding (id, level) pairs. -/
def selectionIds (db : DB) (sels : List Selection) : List (Nat × Nat) :=
  sels.flatMap (fun cs =>
    (db.nodes.filter
      (fun n => decide (n.code = some cs.code ∧ n.level = some cs.level))).map
      (fun n => (n.id, cs.level)))

/-- CTE last_selection of Query 4: ORDER BY level DESC LIMIT 1 over
selection_ids, modelled as the first row attaining the maximal level. -/
def lastSelection (db : DB) (sels : List Selection) : Option (Nat × Nat) :=
  (selectionIds db sels).foldl
    (fun acc p =>
      match acc with
      | none => some p
      | some q => if p.2 > q.2 then some p else some q)
    none

/-- CTE forward_compatible of Query 4: the DISTINCT candidate ids that
are closure descendants of the last selection. -/
def forwardCompatibleCte (db : DB) (sels : List Selection) (target : Nat) :
    List Nat :=
  match lastSelection db sels with
  | none => []
  | some ls =>
      ((db.node_paths.filter (fun e =>
          decide (e.ancestor_id = ls.1) &&
            (candidates db target).any (fun c => decide (e.descendant_id = c.id)))).map
        ClosureEntry.descendant_id).dedup

/-- CTE backward_compatible of Query 4: candidates for which no selection
at a level below the target fails the closure test with the candidate as
ancestor and the selection as descendant. -/
def backwardCompatibleCte (db : DB) (sels : List Selection) (target : Nat) :
    List Nat :=
  ((candidates db target).filter (fun c =>
    !(selectionIds db sels).any (fun si =>
      decide (si.2 < target) && !isReachable db c.id si.1))).map Node.id

/-- Per-candidate reading of the forward CTE: reachable from the last
selection through the Closure Index (false when there is no selection). -/
def forwardPass (db : DB) (sels : List Selection) (cid : Nat) : Bool :=
  match lastSelection db sels with
  | none => false
  | some ls => isReachable db ls.1 cid

/-- Per-candidate reading of the backward CTE filter: every selection at
a level below the target is a closure descendant of the candidate. -/
def backwardPass (db : DB) (sels : List Selection) (target : Nat) (cid : Nat) :
    Bool :=
  !(selectionIds db sels).any (fun si =>
    decide (si.2 < target) && !isReachable db cid si.1)

/-- Row type of the final SELECT of Query 4 (and of its simplified
no-selection variant): code, label, position, group_name, level and the
computed is_compatible flag. -/
structure ResultRow where
  code : Option String
  label : String
  position : Nat
  group_name : String
  level : Option Nat
  is_compatible : Bool
deriving DecidableEq, Repr

/-- Final SELECT clause of Query 4 for one candidate: the CASE WHEN over
the two LEFT JOINs is membership of the candidate id in each CTE. -/
def row4 (db : DB) (target : Nat) (sels : List Selection) (c : Node) :
    ResultRow :=
  { code := c.code, label := c.label, position := c.position,
    group_name := c.group_name, level := c.level,
    is_compatible :=
      decide (c.id ∈ forwardCompatibleCte db sels target) &&
        decide (c.id ∈ backwardCompatibleCte db sels target) }

/-- ORDER BY c.position, c.code on Query 4 result rows (code is never
NULL on candidates, so the tie-break key defaults NULL to ""). -/
def rowLE (a b : ResultRow) : Prop :=
  a.position < b.position ∨
    (a.position = b.position ∧ strLE (a.code.getD "") (b.code.getD "") = true)

instance : DecidableRel rowLE := fun a b => by
  unfold rowLE; exact inferInstance

/-- Embedding of QUERY 4 Approach A (Get Available Options for Level):
one output row per candidate, flagged compatible exactly when the
candidate appears in both the forward and the backward CTE, ordered by
position then code. -/
def query4 (db : DB) (target : Nat) (sels : List Selection) :
    List ResultRow :=
  sqlOrderBy rowLE ((candidates db target).map (row4 db target sels))

/-- Embedding of the SIMPLIFIED VERSION of Query 4 (no previous
selections): every node at the target level that carries a code, flagged
compatible, ordered by position then code.  Its WHERE clause (level =
target AND code IS NOT NULL) coincides with the candidates CTE. -/
def query4NoSelections (db : DB) (target : Nat) : List ResultRow :=
  sqlOrderBy rowLE
    ((candidates db target).map
      (fun n =>
        { code := n.code, label := n.label, position := n.position,
          group_name := n.group_name, level := n.level, is_compatible := true }))

/-- Row type of QUERY 5 (Find Node by Code), including the LEFT JOINed
parent columns. -/
structure FoundRow where
  id : Nat
  code : Option String
  label : String
  level : Option Nat
  full_typecode : Option String
  parent_code : Option String
  parent_label : Option String
deriving DecidableEq, Repr

/-- ORDER BY n.level, n.id on Query 5 rows; a NULL level sorts with key 0
(the relative order of NULL and 0 keys is irrelevant to the claims). -/
def foundRowLE (a b : FoundRow) : Prop :=
  a.level.getD 0 < b.level.getD 0 ∨ (a.level.getD 0 = b.level.getD 0 ∧ a.id ≤ b.id)

instance : DecidableRel foundRowLE := fun a b => by
  unfold foundRowLE; exact inferInstance

/-- Embedding of QUERY 5: every node whose code equals the search string,
LEFT JOINed with its parent row (NULL columns when there is none). -/
def query5 (db : DB) (search : String) : List FoundRow :=
  sqlOrderBy foundRowLE
    ((db.nodes.filter (fun n => decide (n.code = some search))).map (fun n =>
      let p := n.parent_id.bind (lookupNode db)
      { id := n.id, code := n.code, label := n.label, level := n.level,
        full_typecode := n.full_typecode,
        parent_code := p.bind Node.code, parent_label := p.map Node.label }))

/-- The empty database state: no nodes, no closure entries. -/
def dbEmpty : DB := ⟨[], []⟩

/-- Modelled from the spec: the Closure Index maintenance run together
with node insertion (section 4.2 onInsert); the Python code performing it
(database/import_data.py with the closure flag, database/api.py) is not
under src/.  The node row is appended and, in the same unit of work, the
reflexive entry (id, id, 0) plus one entry (a, id, d + 1) for every
existing entry (a, parentId, d) are appended to the closure table. -/
def onInsert (db : DB) (n : Node) : DB :=
  { nodes := db.nodes ++ [n],
    node_paths := db.node_paths ++ ClosureEntry.mk n.id n.id 0 ::
      (db.node_paths.filter (fun e => decide (some e.descendant_id = n.parent_id))).map
        (fun e => ClosureEntry.mk e.ancestor_id n.id (e.depth + 1)) }

/-- Membership in the removed set of a subtree deletion rooted at i: the
node itself or any closure descendant of it. -/
def removedBy (db : DB) (i m : Nat) : Bool :=
  decide (m = i) ||
    db.node_paths.any (fun e => decide (e.ancestor_id = i ∧ e.descendant_id = m))

/-- Modelled from the spec: deleteSubtree (section 4.1) together with the
per-node closure removal of section 4.2 onDelete; the Python code
performing it is not under src/.  The removed set is the node itself plus
every closure descendant; removed nodes and every closure entry touching
a removed id disappear in the same unit of work. -/
def deleteSubtree (db : DB) (i : Nat) : DB :=
  { nodes := db.nodes.filter (fun n => !removedBy db i n.id),
    node_paths := db.node_paths.filter
      (fun e => !(removedBy db i e.ancestor_id || removedBy db i e.descendant_id)) }

/-- Validity of a new node against a state: its parent, when present,
already exists in the store. -/
def parentOk (db : DB) (n : Node) : Bool :=
  match n.parent_id with
  | none => true
  | some p => existsId db p

/-- States of the tree store and Closure Index reachable from the empty
state by node insertion (fresh id, existing parent) and subtree
deletion. -/
inductive Reachable : DB → Prop
  | empty : Reachable dbEmpty
  | insert (db : DB) (n : Node) : Reachable db →
      existsId db n.id = false →
      parentOk db n = true →
      Reachable (onInsert db n)
  | delete (db : DB) (i : Nat) : Reachable db →
      Reachable (deleteSubtree db i)

/-- Walk of the parentId pointers: anc db d k is the node id reached from
d after k parent steps, none once the walk leaves the store or passes the
family root. -/
def anc (db : DB) (d : Nat) : Nat → Option Nat
  | 0 => if existsId db d then some d else none
  | k + 1 => (anc db d k).bind (fun a => (lookupNode db a).bind Node.parent_id)

/-- Well-formedness of the tree store: node ids are unique and every
parent pointer references an existing node. -/
def WF (db : DB) : Prop :=
  (db.nodes.map Node.id).Nodup ∧
    ∀ n ∈ db.nodes, ∀ p, n.parent_id = some p → existsId db p = true

/-- Closure completeness: the closure table holds exactly the triples
produced by walking parentId pointers, reflexive entries included. -/
def INV (db : DB) : Prop :=
  ∀ a d k, ClosureEntry.mk a d k ∈ db.node_paths ↔ anc db d k = some a

/-- Error taxonomy of the resolver entry point (section 7). -/
inductive ResolverError
  | invalidSelection
deriving DecidableEq, Repr

/-- Test for two selections claiming the same level. -/
def hasDuplicateLevels : List Selection → Bool
  | [] => false
  | s :: rest => rest.any (fun t => decide (t.level = s.level)) || hasDuplicateLevels rest

/-- Modelled from the spec: the resolveOptions entry point of the API
layer (database/api.py, not under src/), which validates the selection
list before running Query 4 — two selections claiming the same level fail
with InvalidSelectionError and no partial result (sections 4.4 and 7).
An empty selection list runs the simplified no-selection query. -/
def resolveOptions (db : DB) (target : Nat) (sels : List Selection) :
    Except ResolverError (List ResultRow) :=
  if hasDuplicateLevels sels then Except.error ResolverError.invalidSelection
  else Except.ok
    (if sels.isEmpty then query4NoSelections db target else query4 db target sels)

/-- Consecutive-pair reachability along a list of node ids. -/
def chainPairs (db : DB) : List Nat → Bool
  | [] => true
  | [_] => true
  | a :: b :: rest => isReachable db a b && chainPairs db (b :: rest)

/-- Reachability chain through a list of node ids ending at a final id:
consecutive pairs are reachable and the last element reaches the final
id; the empty list passes trivially. -/
def chainTo (db : DB) (cid : Nat) : List Nat → Bool
  | [] => true
  | [a] => isReachable db a cid
  | a :: b :: rest => isReachable db a b && chainTo db cid (b :: rest)

/-- Ordering of selection rows by level ascending. -/
def selLevelLE (a b : Nat × Nat) : Prop := a.2 ≤ b.2

instance : DecidableRel selLevelLE := fun a b => by
  unfold selLevelLE; exact inferInstance

/-- The before set of a query: resolved selections at levels below the
target, ordered by level ascending. -/
def beforeIds (db : DB) (sels : List Selection) (target : Nat) : List Nat :=
  (sqlOrderBy selLevelLE
    ((selectionIds db sels).filter (fun si => decide (si.2 < target)))).map Prod.fst

/-- The after set of a query: resolved selections at levels above the
target, ordered by level ascending. -/
def afterIds (db : DB) (sels : List Selection) (target : Nat) : List Nat :=
  (sqlOrderBy selLevelLE
    ((selectionIds db sels).filter (fun si => decide (target < si.2)))).map Prod.fst

/-- The forward check as the specification states it, written here only
for comparison with the implemented forward CTE: a single connected chain
before[0] -> ... -> before[last] -> candidate through the Closure Index,
trivially passing when the before set is empty. -/
def forwardCheckSpec (db : DB) (sels : List Selection) (target : Nat)
    (cid : Nat) : Bool :=
  chainTo db cid (beforeIds db sels target)

/-- The backward check as the specification states it, written here only
for comparison with the implemented backward CTE: the candidate reaches
after[0] and consecutive pairs of the after set are reachable, trivially
passing when the after set is empty. -/
def backwardCheckSpec (db : DB) (sels : List Selection) (target : Nat)
    (cid : Nat) : Bool :=
  match afterIds db sels target with
  | [] => true
  | a :: rest => isReachable db cid a && chainPairs db (a :: rest)

/-- The length of the longest selection chain below a node, as the spec
words it: the greatest k such that some node lies k parent steps below
the given node (0 when only the node itself is there). -/
def subtreeHeight (db : DB) (i : Nat) : Nat :=
  ((List.range (db.nodes.length + db.node_paths.length + 1)).filter
    (fun k => db.nodes.any (fun m => decide (anc db m.id k = some i)))).foldl max 0

/-- Node-row builder for the concrete example states: only id, parent,
code, level and position vary across the examples. -/
def mkNode (i : Nat) (p : Option Nat) (c : Option String) (lv : Option Nat)
    (pos : Nat) : Node :=
  { id := i, parent_id := p, code := c, label := "", label_en := "", name := "",
    position := pos, group_name := "", level := lv, full_typecode := none,
    is_intermediate_code := false, pattern := none }

/-- Example family: root R with level-1 children A1 and A2, a level-2
node B under A2 with a level-3 child C, and a level-2 node B2 under A1. -/
def exR : Node := mkNode 1 none (some "R") (some 0) 0
def exA1 : Node := mkNode 2 (some 1) (some "A1") (some 1) 1
def exA2 : Node := mkNode 3 (some 1) (some "A2") (some 1) 2
def exB : Node := mkNode 4 (some 3) (some "B") (some 2) 3
def exC : Node := mkNode 5 (some 4) (some "C") (some 3) 4
def exB2 : Node := mkNode 6 (some 2) (some "B2") (some 2) 5

/-- The example family state, built by six inserts from the empty
state. -/
def exDB : DB :=
  onInsert (onInsert (onInsert (onInsert (onInsert (onInsert dbEmpty
    exR) exA1) exA2) exB) exC) exB2

/-- Example store with a duplicated code: two root nodes both carry the
code X, and only the second has a child. -/
def exX1 : Node := mkNode 1 none (some "X") (some 0) 0
def exX2 : Node := mkNode 2 none (some "X") (some 0) 1
def exY : Node := mkNode 3 (some 2) (some "Y") (some 1) 1

/-- The duplicated-code state, built by three inserts from the empty
state. -/
def exDB7 : DB := onInsert (onInsert (onInsert dbEmpty exX1) exX2) exY

lemma le_foldl_max_init (l : List Nat) (a : Nat) : a ≤ l.foldl max a := by
  induction l generalizing a with
  | nil => exact Nat.le_refl a
  | cons x xs ih => exact Nat.le_trans (Nat.le_max_left a x) (ih (max a x))

lemma le_foldl_max_of_mem {x : Nat} :
    ∀ {l : List Nat} (a : Nat), x ∈ l → x ≤ l.foldl max a := by
  intro l
  induction l with
  | nil => intro a hx; cases hx
  | cons y ys ih =>
      intro a hx
      rcases List.mem_cons.mp hx with h | h
      · subst h
        exact Nat.le_trans (Nat.le_max_right a x) (le_foldl_max_init ys (max a x))
      · exact ih (max a y) h

lemma foldl_max_mem (l : List Nat) (a : Nat) :
    l.foldl max a = a ∨ l.foldl max a ∈ l := by
  induction l generalizing a with
  | nil => exact Or.inl rfl
  | cons x xs ih =>
      rcases ih (max a x) with h | h
      · rcases Nat.le_total a x with hax | hxa
        · exact Or.inr (by
            rw [List.foldl_cons, h, Nat.max_eq_right hax]
            exact List.mem_cons_self x xs)
        · exact Or.inl (by rw [List.foldl_cons, h, Nat.max_eq_left hxa])
      · exact Or.inr (List.mem_cons_of_mem x h)

lemma sqlMax_eq_some_iff (l : List Nat) (v : Nat) :
    sqlMax l = some v ↔ v ∈ l ∧ ∀ x ∈ l, x ≤ v := by
  cases l with
  | nil => simp [sqlMax]
  | cons x rest =>
      simp only [sqlMax, Option.some_inj]
      constructor
      · intro h
        subst h
        refine ⟨?_, ?_⟩
        · rcases foldl_max_mem rest x with h | h
          · rw [h]; exact List.mem_cons_self x rest
          · exact List.mem_cons_of_mem x h
        · intro y hy
          rcases List.mem_cons.mp hy with h | h
          · subst h; exact le_foldl_max_init rest y
          · exact le_foldl_max_of_mem x h
      · rintro ⟨hv, hub⟩
        have h1 : rest.foldl max x ≤ v := by
          rcases foldl_max_mem rest x with h | h
          · rw [h]; exact hub x (List.mem_cons_self x rest)
          · exact hub _ (List.mem_cons_of_mem x h)
        have h2 : v ≤ rest.foldl max x := by
          rcases List.mem_cons.mp hv with h | h
          · subst h; exact le_foldl_max_init rest v
          · exact le_foldl_max_of_mem x h
        exact Nat.le_antisymm h1 h2

lemma find?_of_filter_singleton {α : Type} {p : α → Bool} {l : List α} {x : α}
    (h : l.filter p = [x]) : l.find? p = some x := by
  induction l with
  | nil => simp at h
  | cons a as ih =>
      by_cases hpa : p a = true
      · rw [List.filter_cons_of_pos hpa] at h
        have h1 : a = x := (List.cons_eq_cons.mp h).1
        subst h1
        simp [List.find?, hpa]
      · rw [List.filter_cons_of_neg hpa] at h
        simp only [List.find?, hpa]
        exact ih h

lemma mem_of_filter_singleton {α : Type} {p : α → Bool} {l : List α} {x : α}
    (h : l.filter p = [x]) : x ∈ l ∧ p x = true := by
  have : x ∈ l.filter p := by rw [h]; exact List.mem_cons_self x []
  exact ⟨List.mem_of_mem_filter this, List.of_mem_filter this⟩

lemma eq_of_filter_singleton {α : Type} {p : α → Bool} {l : List α} {x y : α}
    (h : l.filter p = [x]) (hy : y ∈ l) (hpy : p y = true) : y = x := by
  have : y ∈ l.filter p := List.mem_filter.mpr ⟨hy, hpy⟩
  rw [h] at this
  simpa using this

lemma charListLE_total (as bs : List Char) :
    charListLE as bs = true ∨ charListLE bs as = true := by
  induction as generalizing bs with
  | nil => exact Or.inl rfl
  | cons a as1 ih =>
      cases bs with
      | nil => exact Or.inr rfl
      | cons b bs1 =>
          rcases Nat.lt_trichotomy a.toNat b.toNat with h | h | h
          · refine Or.inl ?_
            simp only [charListLE]
            rw [if_pos h]
          · have hnab : ¬ a.toNat < b.toNat := by omega
            have hnba : ¬ b.toNat < a.toNat := by omega
            rcases ih bs1 with h1 | h1
            · refine Or.inl ?_
              simp only [charListLE]
              rw [if_neg hnab, if_neg hnba]
              exact h1
            · refine Or.inr ?_
              simp only [charListLE]
              rw [if_neg hnba, if_neg hnab]
              exact h1
          · refine Or.inr ?_
            simp only [charListLE]
            rw [if_pos h]

lemma charListLE_trans : ∀ {as bs cs : List Char}, charListLE as bs = true →
    charListLE bs cs = true → charListLE as cs = true := by
  intro as
  induction as with
  | nil => intro bs cs h1 h2; rfl
  | cons a as1 ih =>
      intro bs cs h1 h2
      cases bs with
      | nil => simp [charListLE] at h1
      | cons b bs1 =>
          cases cs with
          | nil => simp [charListLE] at h2
          | cons c cs1 =>
              simp only [charListLE] at h1 h2 ⊢
              by_cases hab : a.toNat < b.toNat
              · rw [if_pos hab] at h1
                by_cases hbc : b.toNat < c.toNat
                · rw [if_pos (by omega : a.toNat < c.toNat)]
                · rw [if_neg hbc] at h2
                  by_cases hcb : c.toNat < b.toNat
                  · rw [if_pos hcb] at h2; exact absurd h2 (by simp)
                  · rw [if_pos (by omega : a.toNat < c.toNat)]
              · rw [if_neg hab] at h1
                by_cases hba : b.toNat < a.toNat
                · rw [if_pos hba] at h1; exact absurd h1 (by simp)
                · rw [if_neg hba] at h1
                  by_cases hbc : b.toNat < c.toNat
                  · rw [if_pos (by omega : a.toNat < c.toNat)]
                  · rw [if_neg hbc] at h2
                    by_cases hcb : c.toNat < b.toNat
                    · rw [if_pos hcb] at h2; exact absurd h2 (by simp)
                    · rw [if_neg hcb] at h2
                      rw [if_neg (by omega : ¬ a.toNat < c.toNat),
                          if_neg (by omega : ¬ c.toNat < a.toNat)]
                      exact ih h1 h2

lemma strLE_total (a b : String) : strLE a b = true ∨ strLE b a = true :=
  charListLE_total a.data b.data

lemma strLE_trans {a b c : String} (h1 : strLE a b = true)
    (h2 : strLE b c = true) : strLE a c = true :=
  charListLE_trans h1 h2

instance : IsTotal ResultRow rowLE := by
  constructor
  intro a b
  unfold rowLE
  rcases Nat.lt_trichotomy a.position b.position with h | h | h
  · exact Or.inl (Or.inl h)
  · rcases strLE_total (a.code.getD "") (b.code.getD "") with h1 | h1
    · exact Or.inl (Or.inr ⟨h, h1⟩)
    · exact Or.inr (Or.inr ⟨h.symm, h1⟩)
  · exact Or.inr (Or.inl h)

instance : IsTrans ResultRow rowLE := by
  constructor
  intro a b c hab hbc
  unfold rowLE at hab hbc ⊢
  rcases hab with h1 | ⟨h1, h1s⟩
  · rcases hbc with h2 | ⟨h2, _⟩
    · exact Or.inl (Nat.lt_trans h1 h2)
    · exact Or.inl (h2 ▸ h1)
  · rcases hbc with h2 | ⟨h2, h2s⟩
    · exact Or.inl (h1 ▸ h2)
    · exact Or.inr ⟨h1.trans h2, strLE_trans h1s h2s⟩

lemma existsId_iff (db : DB) (i : Nat) :
    existsId db i = true ↔ ∃ n ∈ db.nodes, n.id = i := by
  simp [existsId, List.any_eq_true]

lemma lookupNode_eq_some {db : DB} {i : Nat} {n : Node}
    (h : lookupNode db i = some n) : n ∈ db.nodes ∧ n.id = i := by
  refine ⟨List.mem_of_find?_eq_some h, ?_⟩
  have := List.find?_some h
  simpa using this

lemma find?_id_of_nodup : ∀ (l : List Node), (l.map Node.id).Nodup →
    ∀ {n : Node}, n ∈ l → l.find? (fun m => decide (m.id = n.id)) = some n := by
  intro l
  induction l with
  | nil => intro _ n hn; cases hn
  | cons a as ih =>
      intro hnd n hn
      rw [List.map_cons] at hnd
      rcases List.mem_cons.mp hn with h | h
      · subst h
        simp [List.find?]
      · have hne : ¬ (a.id = n.id) := by
          intro he
          have h1 : n.id ∈ as.map Node.id := List.mem_map_of_mem Node.id h
          exact (List.nodup_cons.mp hnd).1 (he ▸ h1)
        have hne2 : decide (a.id = n.id) = false := decide_eq_false hne
        simp only [List.find?, hne2]
        exact ih (List.nodup_cons.mp hnd).2 h

lemma lookupNode_of_mem {db : DB} (hnd : (db.nodes.map Node.id).Nodup)
    {n : Node} (hn : n ∈ db.nodes) : lookupNode db n.id = some n :=
  find?_id_of_nodup db.nodes hnd hn

lemma anc_zero (db : DB) (d : Nat) :
    anc db d 0 = if existsId db d then some d else none := rfl

lemma anc_succ (db : DB) (d k : Nat) :
    anc db d (k + 1) =
      (anc db d k).bind (fun a => (lookupNode db a).bind Node.parent_id) := rfl

lemma anc_zero_of_exists {db : DB} {d : Nat} (h : existsId db d = true) :
    anc db d 0 = some d := by
  simp [anc_zero, h]

lemma anc_none_of_not_exists {db : DB} {d : Nat}
    (h : existsId db d = false) : ∀ k, anc db d k = none := by
  intro k
  induction k with
  | zero => simp [anc_zero, h]
  | succ k ih => rw [anc_succ, ih]; rfl

lemma exists_of_anc_some {db : DB} {d k : Nat} {a : Nat}
    (h : anc db d k = some a) : existsId db d = true := by
  by_contra hne
  have hf : existsId db d = false := by simpa using hne
  rw [anc_none_of_not_exists hf k] at h
  cases h

lemma anc_exists {db : DB} (hWF : WF db) {d : Nat} :
    ∀ {k a}, anc db d k = some a → existsId db a = true := by
  intro k
  induction k with
  | zero =>
      intro a h
      cases hd : existsId db d with
      | false => rw [anc_none_of_not_exists hd 0] at h; cases h
      | true =>
          rw [anc_zero_of_exists hd] at h
          injection h with h
          exact h ▸ hd
  | succ k ih =>
      intro a h
      rw [anc_succ] at h
      cases hk : anc db d k with
      | none => rw [hk] at h; cases h
      | some b =>
          rw [hk] at h
          simp only [Option.some_bind] at h
          cases hl : lookupNode db b with
          | none => rw [hl] at h; cases h
          | some nb =>
              rw [hl] at h
              simp only [Option.some_bind] at h
              obtain ⟨hmem, _⟩ := lookupNode_eq_some hl
              exact hWF.2 nb hmem a h

lemma anc_add {db : DB} (hWF : WF db) (d j k : Nat) :
    anc db d (j + k) = (anc db d j).bind (fun m => anc db m k) := by
  induction k with
  | zero =>
      cases hj : anc db d j with
      | none => simp [hj]
      | some m => simp [hj, anc_zero_of_exists (anc_exists hWF hj)]
  | succ k ih =>
      have he : j + (k + 1) = (j + k) + 1 := rfl
      rw [he, anc_succ, ih]
      cases hj : anc db d j with
      | none => simp
      | some m => simp [anc_succ]

lemma existsId_onInsert (db : DB) (n : Node) (i : Nat) :
    existsId (onInsert db n) i = (existsId db i || decide (n.id = i)) := by
  simp [existsId, onInsert, List.any_append]

lemma lookupNode_onInsert_of_exists {db : DB} {i : Nat} (n : Node)
    (h : existsId db i = true) :
    lookupNode (onInsert db n) i = lookupNode db i := by
  simp only [lookupNode, onInsert]
  rw [List.find?_append]
  have hsome : (db.nodes.find? (fun m => decide (m.id = i))).isSome = true := by
    rw [List.find?_isSome]
    rcases (existsId_iff db i).mp h with ⟨m, hm, hid⟩
    exact ⟨m, hm, by simp [hid]⟩
  exact Option.or_of_isSome hsome

lemma lookupNode_onInsert_self {db : DB} {n : Node}
    (hfresh : existsId db n.id = false) :
    lookupNode (onInsert db n) n.id = some n := by
  simp only [lookupNode, onInsert]
  rw [List.find?_append]
  have hnone : db.nodes.find? (fun m => decide (m.id = n.id)) = none := by
    rw [List.find?_eq_none]
    intro x hx hpx
    have : existsId db n.id = true := by
      refine (existsId_iff db n.id).mpr ⟨x, hx, ?_⟩
      simpa using hpx
    rw [this] at hfresh
    cases hfresh
  rw [hnone]
  simp [List.find?]

lemma anc_onInsert_old {db : DB} (hWF : WF db) (n : Node) {d : Nat}
    (hd : existsId db d = true) :
    ∀ k, anc (onInsert db n) d k = anc db d k := by
  intro k
  induction k with
  | zero =>
      have h2 : existsId (onInsert db n) d = true := by
        rw [existsId_onInsert, hd]; rfl
      rw [anc_zero_of_exists h2, anc_zero_of_exists hd]
  | succ k ih =>
      rw [anc_succ, anc_succ, ih]
      cases hk : anc db d k with
      | none => rfl
      | some a =>
          have ha := anc_exists hWF hk
          simp [lookupNode_onInsert_of_exists n ha]

lemma anc_onInsert_new {db : DB} {n : Node} (hWF : WF db)
    (hfresh : existsId db n.id = false) (hpar : parentOk db n = true) :
    ∀ k, anc (onInsert db n) n.id (k + 1) =
      (match n.parent_id with
       | none => none
       | some p => anc db p k) := by
  intro k
  induction k with
  | zero =>
      rw [anc_succ]
      have h0 : anc (onInsert db n) n.id 0 = some n.id := by
        refine anc_zero_of_exists ?_
        rw [existsId_onInsert, hfresh]
        simp
      rw [h0]
      simp only [Option.some_bind]
      rw [lookupNode_onInsert_self hfresh]
      simp only [Option.some_bind]
      cases hp : n.parent_id with
      | none => rfl
      | some p =>
          have hep : existsId db p = true := by
            have h1 := hpar
            rw [parentOk, hp] at h1
            exact h1
          exact (anc_zero_of_exists hep).symm
  | succ k ih =>
      rw [anc_succ, ih]
      cases hp : n.parent_id with
      | none => rfl
      | some p =>
          show (anc db p k).bind _ = anc db p (k + 1)
          rw [anc_succ]
          cases hk : anc db p k with
          | none => rfl
          | some a =>
              have ha := anc_exists hWF hk
              simp [lookupNode_onInsert_of_exists n ha]

lemma WF_onInsert {db : DB} {n : Node} (hWF : WF db)
    (hfresh : existsId db n.id = false) (hpar : parentOk db n = true) :
    WF (onInsert db n) := by
  constructor
  · simp only [onInsert, List.map_append]
    rw [List.nodup_append]
    refine ⟨hWF.1, by simp, ?_⟩
    intro a ha hb
    simp only [List.map_cons, List.map_nil, List.mem_singleton] at hb
    subst hb
    have h1 : existsId db n.id = true := by
      rcases List.mem_map.mp ha with ⟨m, hm, hid⟩
      exact (existsId_iff db n.id).mpr ⟨m, hm, hid⟩
    rw [h1] at hfresh
    cases hfresh
  · intro m hm p hp
    rw [existsId_onInsert]
    rcases List.mem_append.mp hm with h | h
    · rw [hWF.2 m h p hp]; rfl
    · simp only [List.mem_singleton] at h
      subst h
      have hep : existsId db p = true := by
        have h1 := hpar
        rw [parentOk, hp] at h1
        exact h1
      rw [hep]; rfl

lemma mem_onInsert_paths {db : DB} {n : Node} {e : ClosureEntry} :
    e ∈ (onInsert db n).node_paths ↔
      e ∈ db.node_paths ∨ e = ClosureEntry.mk n.id n.id 0 ∨
        ∃ e2 ∈ db.node_paths, some e2.descendant_id = n.parent_id ∧
          e = ClosureEntry.mk e2.ancestor_id n.id (e2.depth + 1) := by
  simp only [onInsert, List.mem_append, List.mem_cons, List.mem_map,
    List.mem_filter, decide_eq_true_iff]
  constructor
  · rintro (h | h | ⟨e2, ⟨h2, hcond⟩, he⟩)
    · exact Or.inl h
    · exact Or.inr (Or.inl h)
    · exact Or.inr (Or.inr ⟨e2, h2, hcond, he.symm⟩)
  · rintro (h | h | ⟨e2, h2, hcond, he⟩)
    · exact Or.inl h
    · exact Or.inr (Or.inl h)
    · exact Or.inr (Or.inr ⟨e2, ⟨h2, hcond⟩, he.symm⟩)

lemma INV_onInsert {db : DB} {n : Node} (hWF : WF db) (hINV : INV db)
    (hfresh : existsId db n.id = false) (hpar : parentOk db n = true) :
    INV (onInsert db n) := by
  intro a d k
  rw [mem_onInsert_paths]
  have hold_no_desc : ∀ a2 k2, ClosureEntry.mk a2 n.id k2 ∉ db.node_paths := by
    intro a2 k2 hmem
    have h1 := (hINV a2 n.id k2).mp hmem
    rw [anc_none_of_not_exists hfresh k2] at h1
    cases h1
  by_cases hd : d = n.id
  · subst hd
    cases k with
    | zero =>
        have hrhs : anc (onInsert db n) n.id 0 = some n.id := by
          refine anc_zero_of_exists ?_
          rw [existsId_onInsert, hfresh]
          simp
        rw [hrhs]
        constructor
        · rintro (h | h | ⟨⟨ea, ed, ek⟩, h2, hcond, he⟩)
          · exact absurd h (hold_no_desc a 0)
          · simp only [ClosureEntry.mk.injEq] at h
            rw [h.1]
          · simp only [ClosureEntry.mk.injEq] at he
            omega
        · intro h
          injection h with h
          subst h
          exact Or.inr (Or.inl rfl)
    | succ j =>
        rw [anc_onInsert_new hWF hfresh hpar j]
        cases hp : n.parent_id with
        | none =>
            constructor
            · rintro (h | h | ⟨⟨ea, ed, ek⟩, h2, hcond, he⟩)
              · exact absurd h (hold_no_desc a (j + 1))
              · simp only [ClosureEntry.mk.injEq] at h
                omega
              · cases hcond
            · intro h
              cases h
        | some p =>
            constructor
            · rintro (h | h | ⟨⟨ea, ed, ek⟩, h2, hcond, he⟩)
              · exact absurd h (hold_no_desc a (j + 1))
              · simp only [ClosureEntry.mk.injEq] at h
                omega
              · injection hcond with hc
                simp only [ClosureEntry.mk.injEq] at he
                have h3 : ClosureEntry.mk a p j = ClosureEntry.mk ea ed ek := by
                  simp only [ClosureEntry.mk.injEq]
                  exact ⟨by omega, hc.symm, by omega⟩
                have hm : ClosureEntry.mk a p j ∈ db.node_paths := by
                  rw [h3]; exact h2
                show anc db p j = some a
                exact (hINV a p j).mp hm
            · intro h
              have h2 : anc db p j = some a := h
              exact Or.inr (Or.inr ⟨ClosureEntry.mk a p j, (hINV a p j).mpr h2,
                rfl, rfl⟩)
  · have hnot_refl : ClosureEntry.mk a d k ≠ ClosureEntry.mk n.id n.id 0 := by
      intro h
      simp only [ClosureEntry.mk.injEq] at h
      exact hd h.2.1
    constructor
    · rintro (h | h | ⟨⟨ea, ed, ek⟩, h2, hcond, he⟩)
      · have hanc := (hINV a d k).mp h
        have hex : existsId db d = true := exists_of_anc_some hanc
        rw [anc_onInsert_old hWF n hex k]
        exact hanc
      · exact absurd h hnot_refl
      · simp only [ClosureEntry.mk.injEq] at he
        exact absurd he.2.1 hd
    · intro h
      refine Or.inl ?_
      cases hex : existsId db d with
      | true =>
          rw [anc_onInsert_old hWF n hex k] at h
          exact (hINV a d k).mpr h
      | false =>
          have hex2 : existsId (onInsert db n) d = false := by
            rw [existsId_onInsert, hex]
            simp only [Bool.false_or, decide_eq_false_iff_not]
            exact fun he => hd he.symm
          rw [anc_none_of_not_exists hex2 k] at h
          cases h

lemma removedBy_iff {db : DB} (hINV : INV db) (i m : Nat) :
    removedBy db i m = true ↔ (m = i ∨ ∃ k, anc db m k = some i) := by
  simp only [removedBy, Bool.or_eq_true, decide_eq_true_iff, List.any_eq_true]
  constructor
  · rintro (h | ⟨e, he, hcond⟩)
    · exact Or.inl h
    · obtain ⟨hc1, hc2⟩ := hcond
      refine Or.inr ⟨e.depth, ?_⟩
      have h3 : ClosureEntry.mk i m e.depth = e := by
        cases e
        simp_all
      refine (hINV i m e.depth).mp ?_
      rw [h3]
      exact he
  · rintro (h | ⟨k, hk⟩)
    · exact Or.inl h
    · exact Or.inr ⟨ClosureEntry.mk i m k, (hINV i m k).mpr hk, rfl, rfl⟩

lemma removed_up {db : DB} (hWF : WF db) (hINV : INV db) {i d k a : Nat}
    (hanc : anc db d k = some a) (hrem : removedBy db i a = true) :
    removedBy db i d = true := by
  rcases (removedBy_iff hINV i a).mp hrem with h | ⟨j, hj⟩
  · rw [h] at hanc
    exact (removedBy_iff hINV i d).mpr (Or.inr ⟨k, hanc⟩)
  · refine (removedBy_iff hINV i d).mpr (Or.inr ⟨k + j, ?_⟩)
    rw [anc_add hWF d k j, hanc]
    simpa using hj

lemma existsId_deleteSubtree_iff {db : DB} {i d : Nat} :
    existsId (deleteSubtree db i) d = true ↔
      existsId db d = true ∧ removedBy db i d = false := by
  simp only [existsId, deleteSubtree, List.any_eq_true, List.mem_filter,
    decide_eq_true_iff, Bool.not_eq_eq_eq_not, Bool.not_true]
  constructor
  · rintro ⟨n, ⟨hn, hr⟩, hid⟩
    subst hid
    exact ⟨⟨n, hn, rfl⟩, hr⟩
  · rintro ⟨⟨n, hn, hid⟩, hr⟩
    subst hid
    exact ⟨n, ⟨hn, hr⟩, rfl⟩

lemma find?_id_filter {l : List Node} (hnd : (l.map Node.id).Nodup)
    {q : Node → Bool} {n : Node} (hn : n ∈ l) (hq : q n = true) :
    (l.filter q).find? (fun m => decide (m.id = n.id)) = some n := by
  apply find?_id_of_nodup
  · exact List.Nodup.sublist (List.Sublist.map Node.id (List.filter_sublist l)) hnd
  · exact List.mem_filter.mpr ⟨hn, hq⟩

lemma lookupNode_deleteSubtree {db : DB} (hWF : WF db) {i d : Nat}
    (hd : existsId db d = true) (hr : removedBy db i d = false) :
    lookupNode (deleteSubtree db i) d = lookupNode db d := by
  rcases (existsId_iff db d).mp hd with ⟨nd, hnd, hid⟩
  subst hid
  have hl : lookupNode db nd.id = some nd := lookupNode_of_mem hWF.1 hnd
  rw [hl]
  have hq : (fun n => !removedBy db i n.id) nd = true := by
    simp only [Bool.not_eq_eq_eq_not, Bool.not_true]
    exact hr
  exact find?_id_filter hWF.1 hnd hq

lemma anc_deleteSubtree {db : DB} (hWF : WF db) (hINV : INV db) {i d : Nat}
    (hd : existsId db d = true) (hr : removedBy db i d = false) :
    ∀ k, anc (deleteSubtree db i) d k = anc db d k := by
  intro k
  induction k with
  | zero =>
      rw [anc_zero_of_exists (existsId_deleteSubtree_iff.mpr ⟨hd, hr⟩),
        anc_zero_of_exists hd]
  | succ k ih =>
      rw [anc_succ, anc_succ, ih]
      cases hk : anc db d k with
      | none => rfl
      | some a =>
          have ha : existsId db a = true := anc_exists hWF hk
          have hra : removedBy db i a = false := by
            cases hcon : removedBy db i a with
            | false => rfl
            | true =>
                have h2 := removed_up hWF hINV hk hcon
                rw [h2] at hr
                cases hr
          simp [lookupNode_deleteSubtree hWF ha hra]

lemma WF_deleteSubtree {db : DB} (hWF : WF db) (hINV : INV db) (i : Nat) :
    WF (deleteSubtree db i) := by
  constructor
  · exact List.Nodup.sublist
      (List.Sublist.map Node.id (List.filter_sublist db.nodes)) hWF.1
  · intro n hn p hp
    have hn2 := List.mem_filter.mp hn
    have hmem : n ∈ db.nodes := hn2.1
    have hsurv : removedBy db i n.id = false := by
      have h2 := hn2.2
      simp only [Bool.not_eq_eq_eq_not, Bool.not_true] at h2
      exact h2
    have hep : existsId db p = true := hWF.2 n hmem p hp
    have h1 : anc db n.id 1 = some p := by
      rw [anc_succ,
        anc_zero_of_exists ((existsId_iff db n.id).mpr ⟨n, hmem, rfl⟩)]
      simp only [Option.some_bind]
      rw [lookupNode_of_mem hWF.1 hmem]
      simp [hp]
    have hrp : removedBy db i p = false := by
      cases hcon : removedBy db i p with
      | false => rfl
      | true =>
          have h2 := removed_up hWF hINV h1 hcon
          rw [h2] at hsurv
          cases hsurv
    exact existsId_deleteSubtree_iff.mpr ⟨hep, hrp⟩

lemma INV_deleteSubtree {db : DB} (hWF : WF db) (hINV : INV db) (i : Nat) :
    INV (deleteSubtree db i) := by
  intro a d k
  have hmem : ClosureEntry.mk a d k ∈ (deleteSubtree db i).node_paths ↔
      (ClosureEntry.mk a d k ∈ db.node_paths ∧
        removedBy db i a = false ∧ removedBy db i d = false) := by
    simp only [deleteSubtree, List.mem_filter, Bool.not_eq_eq_eq_not,
      Bool.not_true, Bool.or_eq_false_iff]
  rw [hmem]
  constructor
  · rintro ⟨hold, hra, hrd⟩
    have hanc := (hINV a d k).mp hold
    have hd : existsId db d = true := exists_of_anc_some hanc
    rw [anc_deleteSubtree hWF hINV hd hrd k]
    exact hanc
  · intro h3
    have hd3 : existsId (deleteSubtree db i) d = true := exists_of_anc_some h3
    obtain ⟨hd, hrd⟩ := existsId_deleteSubtree_iff.mp hd3
    have hanc : anc db d k = some a := by
      rw [← anc_deleteSubtree hWF hINV hd hrd k]
      exact h3
    have hra : removedBy db i a = false := by
      cases hcon : removedBy db i a with
      | false => rfl
      | true =>
          have h4 := removed_up hWF hINV hanc hcon
          rw [h4] at hrd
          cases hrd
    exact ⟨(hINV a d k).mpr hanc, hra, hrd⟩

lemma reachable_WF_INV : ∀ {db : DB}, Reachable db → WF db ∧ INV db := by
  intro db h
  induction h with
  | empty =>
      refine ⟨⟨by simp [dbEmpty], ?_⟩, ?_⟩
      · intro n hn
        simp [dbEmpty] at hn
      · intro a d k
        constructor
        · intro hm
          simp [dbEmpty] at hm
        · intro ha
          rw [anc_none_of_not_exists (by simp [existsId, dbEmpty]) k] at ha
          cases ha
  | insert db n hr hfresh hpar ih =>
      exact ⟨WF_onInsert ih.1 hfresh hpar, INV_onInsert ih.1 ih.2 hfresh hpar⟩
  | delete db i hr ih =>
      exact ⟨WF_deleteSubtree ih.1 ih.2 i, INV_deleteSubtree ih.1 ih.2 i⟩

lemma anc_none_mono {db : DB} {d j : Nat} (h : anc db d j = none) :
    ∀ m, anc db d (j + m) = none := by
  intro m
  induction m with
  | zero => exact h
  | succ m ih =>
      have he : j + (m + 1) = (j + m) + 1 := rfl
      rw [he, anc_succ, ih]
      rfl

lemma anc_bound {db : DB} (hINV : INV db) {d k a : Nat}
    (h : anc db d k = some a) : k ≤ db.node_paths.length := by
  by_contra hgt
  push_neg at hgt
  have hall : ∀ j, j ≤ db.node_paths.length → ∃ b, anc db d j = some b := by
    intro j hj
    cases hj2 : anc db d j with
    | some b => exact ⟨b, rfl⟩
    | none =>
        have h3 : anc db d (j + (k - j)) = none := anc_none_mono hj2 (k - j)
        have h4 : j + (k - j) = k := by omega
        rw [h4] at h3
        rw [h3] at h
        cases h
  have hmem : ∀ j : Fin (db.node_paths.length + 1),
      ClosureEntry.mk ((anc db d j.val).getD 0) d j.val ∈ db.node_paths := by
    intro j
    obtain ⟨b, hb⟩ := hall j.val (by omega)
    simp only [hb, Option.getD_some]
    exact (hINV b d j.val).mpr hb
  have hinj : Function.Injective (fun j : Fin (db.node_paths.length + 1) =>
      ClosureEntry.mk ((anc db d j.val).getD 0) d j.val) := by
    intro j1 j2 he
    simp only [ClosureEntry.mk.injEq] at he
    exact Fin.ext he.2.2
  have hsub : (Finset.univ.image (fun j : Fin (db.node_paths.length + 1) =>
      ClosureEntry.mk ((anc db d j.val).getD 0) d j.val)) ⊆
        db.node_paths.toFinset := by
    intro e he
    rw [Finset.mem_image] at he
    obtain ⟨j, _, hje⟩ := he
    rw [← hje]
    exact List.mem_toFinset.mpr (hmem j)
  have hcard := Finset.card_le_card hsub
  rw [Finset.card_image_of_injective Finset.univ hinj] at hcard
  simp only [Finset.card_univ, Fintype.card_fin] at hcard
  have hlen := List.toFinset_card_le db.node_paths
  omega

lemma mem_depthCalcGen {db : DB} (hWF : WF db) (start : String) :
    ∀ (i m j : Nat), (m, j) ∈ depthCalcGen db start i ↔
      (j = i ∧ ∃ s ∈ db.nodes, s.code = some start ∧ anc db m i = some s.id) := by
  intro i
  induction i with
  | zero =>
      intro m j
      simp only [depthCalcGen, List.mem_map, List.mem_filter, decide_eq_true_iff]
      constructor
      · rintro ⟨n, ⟨hn, hcode⟩, heq⟩
        obtain ⟨h1, h2⟩ := Prod.mk.injEq .. ▸ heq
        refine ⟨h2.symm, n, hn, hcode, ?_⟩
        rw [← h1]
        exact anc_zero_of_exists ((existsId_iff db n.id).mpr ⟨n, hn, rfl⟩)
      · rintro ⟨hj, s, hs, hcode, hanc⟩
        subst hj
        have hex : existsId db m = true := exists_of_anc_some hanc
        rw [anc_zero_of_exists hex] at hanc
        injection hanc with hanc
        exact ⟨s, ⟨hs, hcode⟩, by rw [hanc]⟩
  | succ i ih =>
      intro m j
      simp only [depthCalcGen, List.mem_flatMap, List.mem_map, List.mem_filter,
        decide_eq_true_iff]
      constructor
      · rintro ⟨r, hr, n, ⟨hn, hpar⟩, heq⟩
        obtain ⟨hr2, s, hs, hcode, hranc⟩ := (ih r.1 r.2).mp hr
        obtain ⟨h1, h2⟩ := Prod.mk.injEq .. ▸ heq
        have hanc1 : anc db n.id 1 = some r.1 := by
          rw [anc_succ,
            anc_zero_of_exists ((existsId_iff db n.id).mpr ⟨n, hn, rfl⟩)]
          simp only [Option.some_bind]
          rw [lookupNode_of_mem hWF.1 hn]
          simp [hpar]
        have hanc2 : anc db n.id (1 + i) = some s.id := by
          rw [anc_add hWF n.id 1 i, hanc1]
          simp only [Option.some_bind]
          exact hranc
        rw [Nat.add_comm] at hanc2
        refine ⟨by omega, s, hs, hcode, ?_⟩
        rw [← h1]
        exact hanc2
      · rintro ⟨hj, s, hs, hcode, hanc⟩
        subst hj
        have hdec : anc db m (1 + i) = some s.id := by
          rw [Nat.add_comm]
          exact hanc
        rw [anc_add hWF m 1 i] at hdec
        cases h1 : anc db m 1 with
        | none => rw [h1] at hdec; cases hdec
        | some b =>
            rw [h1] at hdec
            simp only [Option.some_bind] at hdec
            have hexm : existsId db m = true := exists_of_anc_some h1
            rcases (existsId_iff db m).mp hexm with ⟨nm, hnm, hid⟩
            have hlm : lookupNode db m = some nm := by
              rw [← hid]
              exact lookupNode_of_mem hWF.1 hnm
            have hpm : nm.parent_id = some b := by
              rw [anc_succ, anc_zero_of_exists hexm] at h1
              simp only [Option.some_bind] at h1
              rw [hlm] at h1
              simpa using h1
            refine ⟨(b, i), (ih b i).mpr ⟨rfl, s, hs, hcode, hdec⟩,
              nm, ⟨hnm, hpm⟩, ?_⟩
            rw [hid]

lemma mem_depthCalc {db : DB} (hWF : WF db) (hINV : INV db) (start : String)
    (m j : Nat) : (m, j) ∈ depthCalc db start ↔
      ∃ s ∈ db.nodes, s.code = some start ∧ anc db m j = some s.id := by
  simp only [depthCalc, List.mem_flatMap, List.mem_range]
  constructor
  · rintro ⟨i, hi, hmem⟩
    obtain ⟨hj, hrest⟩ := (mem_depthCalcGen hWF start i m j).mp hmem
    subst hj
    exact hrest
  · rintro ⟨s, hs, hcode, hanc⟩
    refine ⟨j, ?_, (mem_depthCalcGen hWF start j m j).mpr ⟨rfl, s, hs, hcode, hanc⟩⟩
    have := anc_bound hINV hanc
    omega

lemma subtreeHeight_attained {db : DB} (sid : Nat)
    (hex : existsId db sid = true) :
    ∃ m, anc db m (subtreeHeight db sid) = some sid := by
  unfold subtreeHeight
  rcases foldl_max_mem
      ((List.range (db.nodes.length + db.node_paths.length + 1)).filter
        (fun k => db.nodes.any (fun m => decide (anc db m.id k = some sid)))) 0
    with h | h
  · rw [h]
    exact ⟨sid, anc_zero_of_exists hex⟩
  · have h2 := List.of_mem_filter h
    simp only [List.any_eq_true, decide_eq_true_iff] at h2
    obtain ⟨mn, _, hanc⟩ := h2
    exact ⟨mn.id, hanc⟩

lemma le_subtreeHeight {db : DB} (hINV : INV db) {sid k m : Nat}
    (hanc : anc db m k = some sid) : k ≤ subtreeHeight db sid := by
  have hkb : k ≤ db.node_paths.length := anc_bound hINV hanc
  have hexm : existsId db m = true := exists_of_anc_some hanc
  rcases (existsId_iff db m).mp hexm with ⟨nm, hnm, hid⟩
  unfold subtreeHeight
  refine le_foldl_max_of_mem 0 (List.mem_filter.mpr ⟨?_, ?_⟩)
  · exact List.mem_range.mpr (by omega)
  · simp only [List.any_eq_true, decide_eq_true_iff]
    exact ⟨nm, hnm, by rw [hid]; exact hanc⟩

/-- C7 (amended) auxiliary equivalence, proved below as the claim
theorem: both depth queries compute the subtree height of the unique
node carrying the code. -/
lemma maxDepth_eq_height {db : DB} (hWF : WF db) (hINV : INV db)
    {start : String} {seed : Node}
    (huniq : db.nodes.filter (fun n => decide (n.code = some start)) = [seed]) :
    maxDepthA db start = some (subtreeHeight db seed.id) ∧
    maxDepthB db start = some (subtreeHeight db seed.id) := by
  obtain ⟨hseedmem, hseedcode⟩ := mem_of_filter_singleton huniq
  have hseedcode2 : seed.code = some start := by simpa using hseedcode
  have hex : existsId db seed.id = true :=
    (existsId_iff db seed.id).mpr ⟨seed, hseedmem, rfl⟩
  have huniq2 : ∀ s ∈ db.nodes, s.code = some start → s = seed := by
    intro s hs hc
    exact eq_of_filter_singleton huniq hs (by simpa using hc)
  obtain ⟨m0, hm0⟩ := subtreeHeight_attained seed.id hex
  constructor
  · show sqlMax ((depthCalc db start).map Prod.snd) =
      some (subtreeHeight db seed.id)
    rw [sqlMax_eq_some_iff]
    constructor
    · rw [List.mem_map]
      refine ⟨(m0, subtreeHeight db seed.id), ?_, rfl⟩
      exact (mem_depthCalc hWF hINV start m0 (subtreeHeight db seed.id)).mpr
        ⟨seed, hseedmem, hseedcode2, hm0⟩
    · intro x hx
      rw [List.mem_map] at hx
      obtain ⟨⟨m, j⟩, hmem, hsnd⟩ := hx
      obtain ⟨s, hs, hc, hanc⟩ := (mem_depthCalc hWF hINV start m j).mp hmem
      have hseq : s = seed := huniq2 s hs hc
      rw [hseq] at hanc
      have hj := le_subtreeHeight hINV hanc
      simp only at hsnd
      omega
  · have hfind : db.nodes.find? (fun n => decide (n.code = some start)) =
        some seed := find?_of_filter_singleton huniq
    unfold maxDepthB
    rw [hfind]
    show sqlMax ((db.node_paths.filter
        (fun e => decide (e.ancestor_id = seed.id))).map ClosureEntry.depth) =
      some (subtreeHeight db seed.id)
    rw [sqlMax_eq_some_iff]
    constructor
    · rw [List.mem_map]
      refine ⟨ClosureEntry.mk seed.id m0 (subtreeHeight db seed.id), ?_, rfl⟩
      exact List.mem_filter.mpr
        ⟨(hINV seed.id m0 (subtreeHeight db seed.id)).mpr hm0, by simp⟩
    · intro x hx
      rw [List.mem_map] at hx
      obtain ⟨e, he, hdepth⟩ := hx
      have hef := List.mem_filter.mp he
      have heanc : e.ancestor_id = seed.id := by simpa using hef.2
      have hanc := (hINV e.ancestor_id e.descendant_id e.depth).mp hef.1
      rw [heanc] at hanc
      have := le_subtreeHeight hINV hanc
      omega

lemma mem_forwardCte {db : DB} {sels : List Selection} {target : Nat}
    {c : Node} (hc : c ∈ candidates db target) :
    c.id ∈ forwardCompatibleCte db sels target ↔
      forwardPass db sels c.id = true := by
  unfold forwardCompatibleCte forwardPass
  cases hls : lastSelection db sels with
  | none => simp
  | some ls =>
      simp only [List.mem_dedup, List.mem_map, List.mem_filter,
        Bool.and_eq_true, decide_eq_true_iff, List.any_eq_true, isReachable]
      constructor
      · rintro ⟨e, ⟨he, hea, _⟩, hdesc⟩
        exact ⟨e, he, by simp [hea, hdesc]⟩
      · intro h
        obtain ⟨e, he, hcond⟩ := h
        refine ⟨e, ⟨he, hcond.1, ⟨c, hc, ?_⟩⟩, hcond.2⟩
        simp [hcond.2]

lemma mem_backwardCte {db : DB} {sels : List Selection} {target : Nat}
    {c : Node} (hc : c ∈ candidates db target) :
    c.id ∈ backwardCompatibleCte db sels target ↔
      backwardPass db sels target c.id = true := by
  unfold backwardCompatibleCte backwardPass
  simp only [List.mem_map, List.mem_filter]
  constructor
  · rintro ⟨c2, ⟨hc2mem, hc2pass⟩, hid⟩
    rw [← hid]
    exact hc2pass
  · intro hpass
    exact ⟨c, ⟨hc, hpass⟩, rfl⟩

lemma exDB_reachable : Reachable exDB := by
  have h0 := Reachable.empty
  have h1 := Reachable.insert dbEmpty exR h0 (by decide) (by decide)
  have h2 := Reachable.insert _ exA1 h1 (by decide) (by decide)
  have h3 := Reachable.insert _ exA2 h2 (by decide) (by decide)
  have h4 := Reachable.insert _ exB h3 (by decide) (by decide)
  have h5 := Reachable.insert _ exC h4 (by decide) (by decide)
  exact Reachable.insert _ exB2 h5 (by decide) (by decide)

lemma exDB7_reachable : Reachable exDB7 := by
  have h0 := Reachable.empty
  have h1 := Reachable.insert dbEmpty exX1 h0 (by decide) (by decide)
  have h2 := Reachable.insert _ exX2 h1 (by decide) (by decide)
  exact Reachable.insert _ exY h2 (by decide) (by decide)

/-- C1: counterexample evidence at a reachable concrete family.  With the
selections A1 at level 1 and B at level 2 lying in different branches and
target level 3, the implemented forward check (CTE forward_compatible)
accepts candidate C (id 5, a closure descendant of the last selection B
alone), while the connected chain A1 -> B -> C through every selection
below the target, demanded by the claim, does not exist in the Closure
Index. -/
theorem c1_forward_check_counterexample :
    Reachable exDB ∧
    5 ∈ forwardCompatibleCte exDB [Selection.mk "A1" 1, Selection.mk "B" 2] 3 ∧
    forwardCheckSpec exDB [Selection.mk "A1" 1, Selection.mk "B" 2] 3 5 = false :=
  ⟨exDB_reachable, by decide, by decide⟩

/-- C2: counterexample evidence at a reachable concrete family.  With the
single selection C at level 3 above the target level 2, the implemented
backward check (CTE backward_compatible) accepts candidate B2 (id 6)
because it only inspects selections at levels below the target, although
no closure path from B2 to the after-selection C (id 5) exists, which the
claim requires. -/
theorem c2_backward_check_counterexample :
    Reachable exDB ∧
    6 ∈ backwardCompatibleCte exDB [Selection.mk "C" 3] 2 ∧
    isReachable exDB 6 5 = false ∧
    backwardCheckSpec exDB [Selection.mk "C" 3] 2 6 = false :=
  ⟨exDB_reachable, by decide, by decide, by decide⟩

/-- C3: with an empty selection set, the simplified query returns exactly
one row per node at the target level carrying a code (the candidate set,
across the whole store), and every returned row carries the
is_compatible flag set to true. -/
theorem c3_no_selection_returns_all (db : DB) (target : Nat) :
    (query4NoSelections db target).Perm
      ((candidates db target).map (fun n =>
        ({ code := n.code, label := n.label, position := n.position,
           group_name := n.group_name, level := n.level,
           is_compatible := true } : ResultRow))) ∧
    ∀ row ∈ query4NoSelections db target, row.is_compatible = true := by
  constructor
  · exact List.perm_insertionSort rowLE _
  · intro row hrow
    have h2 : row ∈ (candidates db target).map (fun n =>
        ({ code := n.code, label := n.label, position := n.position,
           group_name := n.group_name, level := n.level,
           is_compatible := true } : ResultRow)) :=
      (List.mem_insertionSort rowLE).mp hrow
    obtain ⟨n, _, heq⟩ := List.mem_map.mp h2
    rw [← heq]

/-- C4: every candidate contributes one row to the Query 4 result, and
its is_compatible flag equals the conjunction of the forward-check
result and the backward-check result for that candidate. -/
theorem c4_is_compatible_conjunction (db : DB) (target : Nat)
    (sels : List Selection) (c : Node) (hc : c ∈ candidates db target) :
    row4 db target sels c ∈ query4 db target sels ∧
    (row4 db target sels c).is_compatible =
      (forwardPass db sels c.id && backwardPass db sels target c.id) := by
  constructor
  · exact (List.mem_insertionSort rowLE).mpr
      (List.mem_map_of_mem (row4 db target sels) hc)
  · show (decide (c.id ∈ forwardCompatibleCte db sels target) &&
      decide (c.id ∈ backwardCompatibleCte db sels target)) = _
    have h1 : decide (c.id ∈ forwardCompatibleCte db sels target) =
        forwardPass db sels c.id := by
      by_cases hm : c.id ∈ forwardCompatibleCte db sels target
      · rw [decide_eq_true hm]
        exact ((mem_forwardCte hc).mp hm).symm
      · rw [decide_eq_false hm]
        cases hfp : forwardPass db sels c.id with
        | false => rfl
        | true => exact absurd ((mem_forwardCte hc).mpr hfp) hm
    have h2 : decide (c.id ∈ backwardCompatibleCte db sels target) =
        backwardPass db sels target c.id := by
      by_cases hm : c.id ∈ backwardCompatibleCte db sels target
      · rw [decide_eq_true hm]
        exact ((mem_backwardCte hc).mp hm).symm
      · rw [decide_eq_false hm]
        cases hbp : backwardPass db sels target c.id with
        | false => rfl
        | true => exact absurd ((mem_backwardCte hc).mpr hbp) hm
    rw [h1, h2]

/-- C4 witness: the conjunction theorem applied to candidate C (id 5) of
the concrete example family at target level 3. -/
theorem c4_is_compatible_conjunction_witness :
    exC ∈ candidates exDB 3 ∧
    (row4 exDB 3 [Selection.mk "A1" 1] exC ∈ query4 exDB 3 [Selection.mk "A1" 1] ∧
     (row4 exDB 3 [Selection.mk "A1" 1] exC).is_compatible =
       (forwardPass exDB [Selection.mk "A1" 1] exC.id &&
         backwardPass exDB [Selection.mk "A1" 1] 3 exC.id)) :=
  ⟨by decide, c4_is_compatible_conjunction exDB 3 [Selection.mk "A1" 1] exC (by decide)⟩

/-- C5: a selection list containing two selections claiming the same
level makes the resolver entry point fail with InvalidSelectionError and
return no result at all. -/
theorem c5_duplicate_level_rejected (db : DB) (target : Nat)
    (sels : List Selection) (hdup : hasDuplicateLevels sels = true) :
    resolveOptions db target sels = Except.error ResolverError.invalidSelection := by
  unfold resolveOptions
  rw [hdup]
  rfl

/-- C5 witness: two selections both claiming level 1 are rejected on the
concrete example family. -/
theorem c5_duplicate_level_rejected_witness :
    hasDuplicateLevels [Selection.mk "A1" 1, Selection.mk "A2" 1] = true ∧
    resolveOptions exDB 2 [Selection.mk "A1" 1, Selection.mk "A2" 1] =
      Except.error ResolverError.invalidSelection :=
  ⟨by decide, c5_duplicate_level_rejected exDB 2
    [Selection.mk "A1" 1, Selection.mk "A2" 1] (by decide)⟩

/-- C6: closure completeness.  In every state reachable by node insertion
and subtree deletion, the closure table holds exactly the (ancestor,
descendant, distance) triples obtained by walking parentId pointers from
each node, the reflexive (id, id, 0) entries included. -/
theorem c6_closure_completeness (db : DB) (hdb : Reachable db)
    (a d k : Nat) :
    ClosureEntry.mk a d k ∈ db.node_paths ↔ anc db d k = some a :=
  (reachable_WF_INV hdb).2 a d k

/-- C6 witness: the completeness equivalence instantiated at the
concrete example family, at the triple (1, 5, 3) linking the root to the
deepest node. -/
theorem c6_closure_completeness_witness :
    Reachable exDB ∧
    (ClosureEntry.mk 1 5 3 ∈ exDB.node_paths ↔ anc exDB 5 3 = some 1) :=
  ⟨exDB_reachable, c6_closure_completeness exDB exDB_reachable 1 5 3⟩

/-- C7: counterexample to the claimed equivalence, at a reachable state
in which the code X is carried by two nodes: the recursive CTE (Option
A) seeds every node with that code and reports maximal depth 1, while
the closure variant (Option B) resolves the code with LIMIT 1 to the
first such node, whose subtree height is 0. -/
theorem c7_depth_queries_disagree :
    Reachable exDB7 ∧
    maxDepthA exDB7 "X" = some 1 ∧ maxDepthB exDB7 "X" = some 0 :=
  ⟨exDB7_reachable, by decide, by decide⟩

/-- C7 (amended): in every reachable state, for a code carried by exactly
one node, the recursive CTE of Query 3 Option A and the closure-table
variant of Option B return the same value: the length of the longest
parent-pointer chain below that node. -/
theorem c7_depth_queries_agree (db : DB) (hdb : Reachable db)
    (start : String) (seed : Node)
    (huniq : db.nodes.filter (fun n => decide (n.code = some start)) = [seed]) :
    maxDepthA db start = some (subtreeHeight db seed.id) ∧
    maxDepthB db start = some (subtreeHeight db seed.id) := by
  obtain ⟨hWF, hINV⟩ := reachable_WF_INV hdb
  exact maxDepth_eq_height hWF hINV huniq

/-- C7 witness: both depth queries applied to the uniquely carried code B
of the concrete example family return its subtree height. -/
theorem c7_depth_queries_agree_witness :
    (exDB.nodes.filter (fun n => decide (n.code = some "B")) = [exB]) ∧
    (maxDepthA exDB "B" = some (subtreeHeight exDB exB.id) ∧
     maxDepthB exDB "B" = some (subtreeHeight exDB exB.id)) :=
  ⟨by decide, c7_depth_queries_agree exDB exDB_reachable "B" exB (by decide)⟩

/-- C8: both Query 4 result lists (with and without selections) are
sorted by position ascending with code ascending as tie-breaker.  (The
field-list half of the claim fails against the code: the SELECT clause
returns only code, label, position, group_name, level and
is_compatible.) -/
theorem c8_results_sorted (db : DB) (target : Nat) (sels : List Selection) :
    List.Sorted rowLE (query4 db target sels) ∧
    List.Sorted rowLE (query4NoSelections db target) :=
  ⟨List.sorted_insertionSort rowLE _, List.sorted_insertionSort rowLE _⟩

/-- C9: Query 5 returns exactly the nodes whose code equals the search
string, one row per occurrence in the store, stated as a permutation of
row ids against the ids of the matching node rows. -/
theorem c9_find_by_code_complete (db : DB) (search : String) :
    ((query5 db search).map FoundRow.id).Perm
      ((db.nodes.filter (fun n => decide (n.code = some search))).map Node.id) := by
  have hperm := (List.perm_insertionSort foundRowLE
    ((db.nodes.filter (fun n => decide (n.code = some search))).map (fun n =>
      let p := n.parent_id.bind (lookupNode db)
      ({ id := n.id, code := n.code, label := n.label, level := n.level,
         full_typecode := n.full_typecode,
         parent_code := p.bind Node.code,
         parent_label := p.map Node.label } : FoundRow)))).map FoundRow.id
  rw [List.map_map] at hperm
  exact hperm

/-- C10: Query 2 resolves its parent argument by code with LIMIT 1, so
the result is exactly the set of code-bearing direct children of the
first node in table order carrying that code, never the union of
children over all nodes with the code. -/
theorem c10_children_single_parent (db : DB) (parent_code : String)
    (p : Node)
    (hfind : db.nodes.find? (fun n => decide (n.code = some parent_code)) = some p) :
    (query2 db parent_code).Perm
      ((db.nodes.filter
        (fun n => decide (n.parent_id = some p.id ∧ n.code ≠ none))).map childRow) := by
  unfold query2
  rw [hfind]
  exact List.perm_insertionSort childRowLE _

/-- C10 witness: in the duplicated-code state, the children lookup for
code X resolves to the first node carrying X (id 1, childless), so the
result is empty although the other node carrying X has a child. -/
theorem c10_children_single_parent_witness :
    (exDB7.nodes.find? (fun n => decide (n.code = some "X")) = some exX1) ∧
    (query2 exDB7 "X").Perm
      ((exDB7.nodes.filter
        (fun n => decide (n.parent_id = some exX1.id ∧ n.code ≠ none))).map childRow) :=
  ⟨by decide, c10_children_single_parent exDB7 "X" exX1 (by decide)⟩
